import Mathlib

/-!
# Verification of the beacon4hcnv access-policy filter and reconciliation engine

Shallow embedding of the core functions of `beacon_api/utils/polyvalent_functions.py`
and `beacon_api/api/genomic_region.py`:

* `filter_response`       (polyvalent_functions.py, lines 246-288)
* `access_resolution`     (polyvalent_functions.py, lines 168-212)
* `parse_filters_request` (polyvalent_functions.py, lines 86-111)
* `filter_exists`         (polyvalent_functions.py, lines 35-46)
* `datasetHandover`       (polyvalent_functions.py, lines 49-58)
* `transform_misses`      (genomic_region.py, lines 130-148)
* the per-variant reconciliation step of `get_datasets` (genomic_region.py, lines 219-233)
* the response assembly and top-level `exists` flag (genomic_region.py, lines 229-247 and 339-341)

Python values are modelled by the `JVal` tree (dicts as association lists in
insertion order, which matches Python dict semantics as long as keys are
unique). Python exceptions (KeyError, TypeError/AttributeError, IndexError)
are modelled by the `PyErr` error monad: `d[k]` on a missing key is
`.error (.keyError k)`, subscripting or `.keys()` on a non-dict is
`.error .typeError` (we do not distinguish TypeError from AttributeError),
and `l[i]` out of range is `.error (.indexError i)`.
-/

namespace Beacon

/-- A Python/JSON-like value: None, bool, int, str, dict (association list in
insertion order) or list. -/
inductive JVal where
  | jnull
  | jbool (b : Bool)
  | jint  (n : Int)
  | jstr  (s : String)
  | jobj  (fields : List (String × JVal))
  | jarr  (elems : List JVal)
deriving Repr

/-- Python exceptions that the embedded code can raise. -/
inductive PyErr where
  | keyError (k : String)
  | typeError
  | indexError (i : Nat)
deriving Repr, DecidableEq

/-- First-match association-list lookup; on a Python dict (unique keys) this is
exactly `d[k]` / `d.get(k)` membership. -/
def alookup : List (String × α) → String → Option α
  | [], _ => none
  | (k, v) :: rest, key => if k = key then some v else alookup rest key

/-- Python `k in d.keys()` for a dict value list. -/
def hasKey (d : List (String × α)) (k : String) : Bool :=
  (alookup d k).isSome

/-- Python `d[k]` on a dict: KeyError when absent. -/
def pyDictGet (d : List (String × JVal)) (k : String) : Except PyErr JVal :=
  match alookup d k with
  | some v => .ok v
  | none => .error (.keyError k)

/-- Python `v[k]` on an arbitrary value: TypeError when `v` is not a dict. -/
def pySubscript (v : JVal) (k : String) : Except PyErr JVal :=
  match v with
  | .jobj fields => pyDictGet fields k
  | _ => .error .typeError

/-- Using a value as a dict (e.g. calling `.keys()` on it): error when it is
not a dict (Python AttributeError, collapsed into `typeError`). -/
def asDict (v : JVal) : Except PyErr (List (String × JVal)) :=
  match v with
  | .jobj fields => .ok fields
  | _ => .error .typeError

/-- Python truthiness of a value (`bool(v)`). -/
def truthy : JVal → Bool
  | .jnull => false
  | .jbool b => b
  | .jint n => decide (n ≠ 0)
  | .jstr s => decide (s ≠ "")
  | .jobj fields => !fields.isEmpty
  | .jarr elems => !elems.isEmpty

/-- Python `v == s` for a string `s`; used for Python `in` checks against lists of
strings (only `jstr` values can compare equal to a string). -/
def eqStr (v : JVal) (s : String) : Bool :=
  match v with
  | .jstr t => decide (t = s)
  | _ => false

/-- Python `v == n` for an int `n`; used for Python `in` checks against lists of ints. -/
def eqInt (v : JVal) (n : Int) : Bool :=
  match v with
  | .jint m => decide (m = n)
  | _ => false

/-- Python `v in levels` where `levels` is a Python list of strings
(`user_levels` in the source). -/
def inLevels (v : JVal) (levels : List String) : Bool :=
  levels.any (fun l => eqStr v l)

/-- Python `v in accessible_datasets` where the accessible datasets are strings. -/
def inAccessible (v : JVal) (acc : List String) : Bool :=
  acc.any (fun a => eqStr v a)

/-- Python `isinstance(v, dict)`. -/
def isDict : JVal → Bool
  | .jobj _ => true
  | _ => false

/-- Python `isinstance(v, dict) or isinstance(v, list)` (line 267 of the source). -/
def isObjOrArr : JVal → Bool
  | .jobj _ => true
  | .jarr _ => true
  | _ => false

/-- Python `element.get("datasetId")`-style access: `jnull` (Python None) when the key
is absent or the value is not a dict. -/
def elemGet (v : JVal) (k : String) : JVal :=
  match v with
  | .jobj fields => (alookup fields k).getD .jnull
  | _ => .jnull

/-- Line 261: `translated_key = field2access[key] if key in field2access.keys() else key`. -/
def translate (f2a : List (String × String)) (k : String) : String :=
  (alookup f2a k).getD k

/-- Python `if parent_key:` tests truthiness, so an empty-string parent key
behaves like `None`. -/
def normPk : Option String → Option String
  | none => none
  | some s => if s = "" then none else some s

/-- Line 262: `access_levels_dict[parent_key] if parent_key else access_levels_dict`.
The whole policy dict itself is the scope value when there is no parent key. -/
def scopeValue (ald : List (String × JVal)) (pk : Option String) : Except PyErr JVal :=
  match normPk pk with
  | none => .ok (.jobj ald)
  | some p => pyDictGet ald p

/-- Line 263: `translated_key not in access_levels_dict.keys() and translated_key
not in specific_access_levels_dict.keys()`. The `and` short-circuits, so
`.keys()` is only called on the scope value when the first conjunct is true. -/
def passThroughCheck (ald : List (String × JVal)) (f2a : List (String × String))
    (pk : Option String) (k : String) : Except PyErr Bool := do
  let scVal ← scopeValue ald pk
  if hasKey ald (translate f2a k) then
    pure false
  else do
    let sc ← asDict scVal
    pure (!(hasKey sc (translate f2a k)))

/-- Line 269: `access_levels_dict[translated_key]["accessLevelSummary"]`. -/
def selfSummary (ald : List (String × JVal)) (tk : String) : Except PyErr JVal := do
  let s ← pyDictGet ald tk
  pySubscript s "accessLevelSummary"

/-- Lines 270-271: `parent_permission` is `True` unless there is a (truthy)
parent key, in which case it is `access_levels_dict[parent_key][key] in
user_levels` (note: the untranslated `key`). -/
def parentGate (ald : List (String × JVal)) (levels : List String)
    (pk : Option String) (k : String) : Except PyErr Bool :=
  match normPk pk with
  | none => .ok true
  | some p => do
      let ps ← pyDictGet ald p
      let pv ← pySubscript ps k
      .ok (inLevels pv levels)

/-- Line 275: `access_levels_dict[parent_key][translated_key] if parent_key else
access_levels_dict[translated_key]`. -/
def leafLevel (ald : List (String × JVal)) (pk : Option String) (tk : String) :
    Except PyErr JVal :=
  match normPk pk with
  | some p => do
      let ps ← pyDictGet ald p
      pySubscript ps tk
  | none => pyDictGet ald tk

mutual

/-- Model of `filter_response` (polyvalent_functions.py, lines 246-288): recursive
response filter. A dict is rebuilt field by field, a list element-wise; any
other value falls through to `return final_dict`, i.e. the empty dict. -/
def filter_response (response : JVal) (ald : List (String × JVal))
    (acc levels : List String) (f2a : List (String × String)) (pk : Option String) :
    Except PyErr JVal :=
  match response with
  | .jobj fields => (processFields fields ald acc levels f2a pk).map JVal.jobj
  | .jarr elems => (processElems elems ald acc levels f2a pk).map JVal.jarr
  | _ => .ok (.jobj [])

/-- The `for key, val in response.items()` loop of `filter_response`
(lines 260-277), processing fields in order and concatenating what each
iteration adds to `final_dict` (zero or one entries). -/
def processFields (fields : List (String × JVal)) (ald : List (String × JVal))
    (acc levels : List String) (f2a : List (String × String)) (pk : Option String) :
    Except PyErr (List (String × JVal)) :=
  match fields with
  | [] => .ok []
  | (k, v) :: rest => do
      let entry ← (do
        let pt ← passThroughCheck ald f2a pk k
        if pt then
          pure [(k, v)]
        else
          if isObjOrArr v && hasKey ald (translate f2a k) then do
            let summary ← selfSummary ald (translate f2a k)
            let parentPermission ← parentGate ald levels pk k
            if inLevels summary levels && parentPermission then do
              let fv ← filter_response v ald acc levels f2a (some (translate f2a k))
              pure [(k, fv)]
            else
              pure []
          else do
            let validLevel ← leafLevel ald pk (translate f2a k)
            if inLevels validLevel levels then pure [(k, v)] else pure [])
      let r ← processFields rest ald acc levels f2a pk
      .ok (entry ++ r)

/-- The list branch of `filter_response` (lines 279-286): non-dict elements are
dropped; a dict element is dropped when its `datasetId` is truthy and not in
`accessible_datasets`; kept elements are filtered with the same parent key. -/
def processElems (elems : List JVal) (ald : List (String × JVal))
    (acc levels : List String) (f2a : List (String × String)) (pk : Option String) :
    Except PyErr (List JVal) :=
  match elems with
  | [] => .ok []
  | e :: rest =>
      if isDict e then
        if !truthy (elemGet e "datasetId") || inAccessible (elemGet e "datasetId") acc then do
          let fe ← filter_response e ald acc levels f2a pk
          let r ← processElems rest ald acc levels f2a pk
          .ok (fe :: r)
        else
          processElems rest ald acc levels f2a pk
      else
        processElems rest ald acc levels f2a pk

end

mutual

/-- Well-formedness of a response tree as a Python value: every dict node has
distinct keys (Python dicts cannot hold duplicates; the association-list
encoding can, so theorems about dict nodes assume this). -/
def wfJ : JVal → Bool
  | .jobj fields => (fields.map Prod.fst).Nodup && wfFields fields
  | .jarr elems => wfElems elems
  | _ => true

def wfFields : List (String × JVal) → Bool
  | [] => true
  | (_, v) :: rest => wfJ v && wfFields rest

def wfElems : List JVal → Bool
  | [] => true
  | e :: rest => wfJ e && wfElems rest

end

mutual

/-- No field reachable by the filter is modelled in the policy: every key of a
dict node translates to a key outside the top-level policy dict, and list
elements satisfy the same recursively. (Fields that pass through are kept
verbatim without recursion, so nothing below them needs the condition.) -/
def unmodJ (ald : List (String × JVal)) (f2a : List (String × String)) : JVal → Bool
  | .jobj fields => unmodFields ald f2a fields
  | .jarr elems => unmodElems ald f2a elems
  | _ => true

def unmodFields (ald : List (String × JVal)) (f2a : List (String × String)) :
    List (String × JVal) → Bool
  | [] => true
  | (k, _) :: rest => !hasKey ald (translate f2a k) && unmodFields ald f2a rest

def unmodElems (ald : List (String × JVal)) (f2a : List (String × String)) :
    List JVal → Bool
  | [] => true
  | e :: rest => unmodJ ald f2a e && unmodElems ald f2a rest

end

-- ---------------------------------------------------------------------------
-- access_resolution (polyvalent_functions.py, lines 168-212)
-- ---------------------------------------------------------------------------

/-- The errors `access_resolution` can raise (`BeaconUnauthorised` /
`BeaconForbidden` in the source; their request/host/message payloads carry no
decision-relevant data and are omitted). -/
inductive AccessErr where
  | unauthorised
  | forbidden
deriving Repr, DecidableEq

/-- The token dict as `access_resolution` reads it: `token["bona_fide_status"]`,
`token["authenticated"]`, and the optional `token["permissions"]` list of
dataset ids (`none` models a token without the `permissions` key). -/
structure Token where
  bona_fide_status : Bool
  authenticated : Bool
  permissions : Option (List Int)
deriving Repr, DecidableEq

/-- Python `'permissions' in token and token['permissions']` (line 194): the key is
present and its list is truthy (non-empty). -/
def permsTruthy (t : Token) : Bool :=
  match t.permissions with
  | none => false
  | some l => !l.isEmpty

/-- Model of `access_resolution` (lines 168-212). Dataset id lists come in as Python
lists; the returned `access` is built with set semantics (`set(...)` /
`.union`), so it is modelled as a `Finset`. -/
def access_resolution (token : Token)
    (public_data registered_data controlled_data : List Int) :
    Except AccessErr (List String × Finset Int) := do
  let permissions : List String := if !public_data.isEmpty then ["PUBLIC"] else []
  let access : Finset Int := public_data.toFinset
  let (permissions, access) ←
    if !registered_data.isEmpty && token.bona_fide_status then
      pure (permissions ++ ["REGISTERED"], access ∪ registered_data.toFinset)
    else if !registered_data.isEmpty && public_data.isEmpty then
      if token.authenticated = false then
        throw AccessErr.unauthorised
      else
        throw AccessErr.forbidden
    else
      pure (permissions, access)
  let (permissions, access) ←
    if !controlled_data.isEmpty && permsTruthy token then
      let controlled_access := controlled_data.toFinset ∩ (token.permissions.getD []).toFinset
      let permissions :=
        if controlled_access.Nonempty then permissions ++ ["CONTROLLED"] else permissions
      pure (permissions, access ∪ controlled_access)
    else if !controlled_data.isEmpty && public_data.isEmpty && registered_data.isEmpty then
      if token.authenticated = false then
        throw AccessErr.unauthorised
      else
        throw AccessErr.forbidden
    else
      pure (permissions, access)
  return (permissions, access)

-- ---------------------------------------------------------------------------
-- parse_filters_request (polyvalent_functions.py, lines 86-111)
-- ---------------------------------------------------------------------------

/-- Left-to-right effectful map: a Python list comprehension (or loop of
appends) over fallible element computations — the first failing element
aborts, exactly like an exception escaping a comprehension. -/
def emapM (f : α → Except PyErr β) : List α → Except PyErr (List β)
  | [] => .ok []
  | a :: rest => do
      let b ← f a
      let r ← emapM f rest
      .ok (b :: r)

/-- Python `l[i]` on a list: IndexError when out of range. -/
def pyIndexList (l : List String) (i : Nat) : Except PyErr String :=
  match l.get? i with
  | some s => .ok s
  | none => .error (.indexError i)

/-- Test whether the character list `pat` starts the list `s`. -/
def headMatches : List Char → List Char → Bool
  | [], _ => true
  | _ :: _, [] => false
  | p :: ps, c :: cs => p == c && headMatches ps cs

/-- Fuel-driven worker for `pySplit`: left-to-right, non-overlapping scan for
the separator, accumulating the current piece in reverse. The fuel only makes
the recursion structural; it is always at least the input length plus one, so
the fuel-exhausted arm is never taken. -/
def splitAux (sep : List Char) : Nat → List Char → List Char → List (List Char)
  | 0, acc, rest => [acc.reverse ++ rest]
  | _ + 1, acc, [] => [acc.reverse]
  | fuel + 1, acc, c :: cs =>
      if headMatches sep (c :: cs) then
        acc.reverse :: splitAux sep fuel [] (List.drop (sep.length - 1) cs)
      else
        splitAux sep fuel (c :: acc) cs

/-- Python `s.split(sep)` for a non-empty separator: greedy left-to-right,
non-overlapping. (An executable model of the builtin; Python rejects an empty
separator, which the code never passes.) -/
def pySplit (s sep : String) : List String :=
  if sep.data.isEmpty then [s]
  else (splitAux sep.data (s.data.length + 1) [] s.data).map (fun cs => String.mk cs)

/-- Python `pat in s` substring containment, for non-empty `pat`
(`s.split(pat)` has at least two pieces exactly when `pat` occurs in `s`). -/
def containsSub (s pat : String) : Bool :=
  decide (2 ≤ (pySplit s pat).length)

/-- The ordered operator scan of lines 95-101: the first operator of the fixed
list occurring in the remainder wins. -/
def findOp (rest : String) : Option String :=
  [">=", "<=", "=", ">", "<"].find? (fun op => containsSub rest op)

/-- One iteration of the `parse_filters_request` loop (lines 91-109): split on
`:`, take elements 0 and 1 (IndexError when there is no `:`), then either
split the remainder around the first matching operator into a 4-element list
or keep the 2-element `[ontology, term]` form. -/
def parse_one_filter (tok : String) : Except PyErr (List String) := do
  let filter_elements := pySplit tok ":"
  let ontology ← pyIndexList filter_elements 0
  let rest ← pyIndexList filter_elements 1
  match findOp rest with
  | some op => do
      let term ← pyIndexList (pySplit rest op) 0
      let value ← pyIndexList (pySplit rest op) 1
      .ok [ontology, term, op, value]
  | none => .ok [ontology, rest]

/-- Model of `parse_filters_request` (lines 86-111). -/
def parse_filters_request (filters_request_list : List String) :
    Except PyErr (List (List String)) :=
  emapM parse_one_filter filters_request_list

-- ---------------------------------------------------------------------------
-- filter_exists (polyvalent_functions.py, lines 35-46)
-- ---------------------------------------------------------------------------

/-- Python `v is True` / `v is False`: the identity test against a boolean,
which only the actual boolean objects satisfy. -/
def isTheBool (v : JVal) (want : Bool) : Bool :=
  match v with
  | .jbool b => b == want
  | _ => false

/-- The list comprehension `[d for d in datasets if d['exists'] is X]`:
`d['exists']` can raise; the identity test keeps exactly the records whose
`exists` value is the boolean `X`. -/
def selectByExists (datasets : List JVal) (want : Bool) : Except PyErr (List JVal) :=
  match datasets with
  | [] => .ok []
  | d :: rest => do
      let e ← pySubscript d "exists"
      let r ← selectByExists rest want
      if isTheBool e want then .ok (d :: r) else .ok r

/-- Model of `filter_exists` (lines 35-46): the four recognized modes, and a fall
through off the end of the function (Python returns `None`) for any other
mode, modelled as `none`. -/
def filter_exists (include_dataset : String) (datasets : List JVal) :
    Except PyErr (Option (List JVal)) :=
  if include_dataset = "ALL" then
    .ok (some datasets)
  else if include_dataset = "NONE" then
    .ok (some [])
  else if include_dataset = "HIT" then
    (selectByExists datasets true).map some
  else if include_dataset = "MISS" then
    (selectByExists datasets false).map some
  else
    .ok none

-- ---------------------------------------------------------------------------
-- datasetHandover / transform_misses (polyvalent_functions.py 49-58,
-- genomic_region.py 130-148)
-- ---------------------------------------------------------------------------

/-- Model of `datasetHandover` (polyvalent_functions.py, lines 49-58). -/
def datasetHandover (dataset_name : String) : JVal :=
  .jarr [.jobj [
    ("handoverType", .jobj [("id", .jstr "CUSTOM"), ("label", .jstr "Dataset info")]),
    ("note", .jstr "Dataset information and DAC contact details in EGA Website"),
    ("url", .jstr ("https://ega-archive.org/datasets/" ++ dataset_name))]]

/-- Model of `transform_misses` (genomic_region.py, lines 130-148): the synthetic miss
record for one dataset, with `exists` false and the counts zeroed, built from
the DB record's `stableId`, `datasetId` (internal id) and `accessType`. -/
def transform_misses (stableId : String) (datasetId : Int) (accessType : String) : JVal :=
  .jobj [
    ("datasetId", .jstr stableId),
    ("internalId", .jint datasetId),
    ("exists", .jbool false),
    ("variantCount", .jint 0),
    ("callCount", .jint 0),
    ("sampleCount", .jint 0),
    ("frequency", .jint 0),
    ("numVariants", .jint 0),
    ("info", .jobj [("accessType", .jstr accessType),
                    ("matchingSampleCount", .jint 0)]),
    ("datasetHandover", datasetHandover stableId)]

-- ---------------------------------------------------------------------------
-- Per-variant reconciliation of get_datasets (genomic_region.py, lines 219-233)
-- ---------------------------------------------------------------------------

/-- The per-variant body of `get_datasets` (lines 219-233): when the mode is
ALL or MISS, collect the hit records', `internalId`s, synthesize one
`transform_misses` record per visible dataset id without a hit (the DB lookup
of `stableId`/`accessType` per missing id is the `meta` collaborator), append
them, and finally apply `filter_exists`. -/
def reconcile_variant (hits : List JVal) (visible : List Int)
    (meta : Int → String × String) (include_dataset : String) :
    Except PyErr (Option (List JVal)) := do
  let responses ←
    if include_dataset = "ALL" ∨ include_dataset = "MISS" then do
      let list_hits ← emapM (fun r => pySubscript r "internalId") hits
      let accessible_missing := visible.filter (fun x => !(list_hits.any (fun h => eqInt h x)))
      let miss_datasets := accessible_missing.map
        (fun id => transform_misses (meta id).1 id (meta id).2)
      pure (hits ++ miss_datasets)
    else
      pure hits
  filter_exists include_dataset responses

-- ---------------------------------------------------------------------------
-- Response assembly and the top-level exists flag (genomic_region.py,
-- lines 229-247 and 339-341)
-- ---------------------------------------------------------------------------

/-- The `final_variantsFound_element` dict built for each variant
(genomic_region.py, lines 234-243). Its keys are `variantDetails`,
`datasetAlleleResponses`, `variantAnnotations`, `variantHandover` and `info` —
and nothing else. -/
def final_variantsFound_element (variantDetails : JVal)
    (datasetAlleleResponses : List JVal) (cellBase dbSNP variantHandover : JVal) : JVal :=
  .jobj [
    ("variantDetails", variantDetails),
    ("datasetAlleleResponses", .jarr datasetAlleleResponses),
    ("variantAnnotations", .jobj [("cellBase", cellBase), ("dbSNP", dbSNP)]),
    ("variantHandover", variantHandover),
    ("info", .jobj [])]

/-- Line 341 of genomic_region.py:
`any([dataset['exists'] for variant in variantsFound for dataset in
variant["datasetAlleleResponses"]])` — the single, top-level `exists` flag of
the beacon response, computed across all variants. -/
def beacon_exists (variantsFound : List JVal) : Except PyErr Bool := do
  let flags ← emapM (fun v => do
    let dar ← pySubscript v "datasetAlleleResponses"
    match dar with
    | .jarr l => emapM (fun d => do
        let e ← pySubscript d "exists"
        pure (truthy e)) l
    | _ => .error .typeError) variantsFound
  pure (flags.flatten.any id)

/-- One iteration of the field loop of `filter_response` (lines 260-277), as a
named function: what the iteration for `(k, v)` appends to `final_dict`
(the empty list or the single entry it assigns). This is definitionally the
entry computation inlined in `processFields`. -/
def entryStep (k : String) (v : JVal) (ald : List (String × JVal))
    (acc levels : List String) (f2a : List (String × String)) (pk : Option String) :
    Except PyErr (List (String × JVal)) := do
  let pt ← passThroughCheck ald f2a pk k
  if pt then
    pure [(k, v)]
  else
    if isObjOrArr v && hasKey ald (translate f2a k) then do
      let summary ← selfSummary ald (translate f2a k)
      let parentPermission ← parentGate ald levels pk k
      if inLevels summary levels && parentPermission then do
        let fv ← filter_response v ald acc levels f2a (some (translate f2a k))
        pure [(k, fv)]
      else
        pure []
    else do
      let validLevel ← leafLevel ald pk (translate f2a k)
      if inLevels validLevel levels then pure [(k, v)] else pure []

/-- The current policy scope as a dict: `access_levels_dict[parent_key]` when
there is a (truthy) parent key, else the top-level policy dict itself, then
viewed as a dict (as `.keys()` does). -/
def currentScope (ald : List (String × JVal)) (pk : Option String) :
    Except PyErr (List (String × JVal)) := do
  let v ← scopeValue ald pk
  asDict v

/-- The key list of a dict value (empty for non-dicts). -/
def keysOf (v : JVal) : List String :=
  match v with
  | .jobj fields => fields.map Prod.fst
  | _ => []

-- Quick sanity checks that the embedding computes (and matches hand-traced
-- Python runs on the same inputs).
example :
    filter_response (.jobj [("x", .jint 1)]) [] [] [] [] none = .ok (.jobj [("x", .jint 1)]) := rfl

example :
    filter_response
      (.jobj [("beacon", .jobj [("name", .jstr "b"), ("secret", .jint 7)])])
      [("beacon", .jobj [("accessLevelSummary", .jstr "PUBLIC"),
                         ("name", .jstr "PUBLIC"), ("secret", .jstr "CONTROLLED")])]
      [] ["PUBLIC"] [] none
      = .ok (.jobj [("beacon", .jobj [("name", .jstr "b")])]) := rfl

example :
    filter_response
      (.jarr [.jobj [("datasetId", .jstr "A")], .jobj [("datasetId", .jstr "B")],
              .jstr "scalar"])
      [] ["A"] ["PUBLIC"] [] none
      = .ok (.jarr [.jobj [("datasetId", .jstr "A")]]) := rfl

-- ---------------------------------------------------------------------------
-- Reasoning infrastructure for the Except monad and the filter recursion
-- ---------------------------------------------------------------------------

theorem ok_bind {ε : Type u} (a : α) (f : α → Except ε β) : (Except.ok a >>= f) = f a := rfl

theorem error_bind {ε : Type u} (x : ε) (f : α → Except ε β) :
    ((Except.error x : Except ε α) >>= f) = .error x := rfl

theorem throw_eq_error {ε : Type u} (x : ε) : (throw x : Except ε α) = .error x := rfl

theorem ebind_ok_iff {ε : Type u} {e : Except ε α} {f : α → Except ε β} {b : β} :
    e >>= f = .ok b ↔ ∃ a, e = .ok a ∧ f a = .ok b := by
  cases e with
  | ok a => simp [ok_bind]
  | error x => simp [error_bind]

theorem emap_ok_iff {ε : Type u} {g : α → β} {e : Except ε α} {b : β} :
    e.map g = .ok b ↔ ∃ a, e = .ok a ∧ g a = b := by
  cases e with
  | ok a => simp [Except.map]
  | error x => simp [Except.map]


theorem processFields_nil : processFields [] ald acc levels f2a pk = .ok [] := rfl

theorem processFields_cons :
    processFields ((k, v) :: rest) ald acc levels f2a pk =
      entryStep k v ald acc levels f2a pk >>= fun entry =>
        processFields rest ald acc levels f2a pk >>= fun r => .ok (entry ++ r) := rfl

theorem processElems_nil : processElems [] ald acc levels f2a pk = .ok [] := rfl

theorem processElems_cons_kept {e : JVal} (h1 : isDict e = true)
    (h2 : (!truthy (elemGet e "datasetId") || inAccessible (elemGet e "datasetId") acc) = true) :
    processElems (e :: rest) ald acc levels f2a pk =
      filter_response e ald acc levels f2a pk >>= fun fe =>
        processElems rest ald acc levels f2a pk >>= fun r => .ok (fe :: r) := by
  rw [processElems]
  simp [h1, h2]

theorem processElems_cons_dropped {e : JVal} (h1 : isDict e = true)
    (h2 : (!truthy (elemGet e "datasetId") || inAccessible (elemGet e "datasetId") acc) = false) :
    processElems (e :: rest) ald acc levels f2a pk =
      processElems rest ald acc levels f2a pk := by
  rw [processElems]
  simp [h1, h2]

theorem processElems_cons_notdict {e : JVal} (h1 : isDict e = false) :
    processElems (e :: rest) ald acc levels f2a pk =
      processElems rest ald acc levels f2a pk := by
  rw [processElems]
  simp [h1]

theorem processFields_append (xs ys : List (String × JVal)) :
    processFields (xs ++ ys) ald acc levels f2a pk =
      processFields xs ald acc levels f2a pk >>= fun a =>
        processFields ys ald acc levels f2a pk >>= fun b => .ok (a ++ b) := by
  induction xs with
  | nil =>
      cases h : processFields ys ald acc levels f2a pk <;>
        simp [processFields_nil, h, ok_bind, error_bind]
  | cons hd tl ih =>
      obtain ⟨k, v⟩ := hd
      rw [List.cons_append, processFields_cons, processFields_cons]
      cases h1 : entryStep k v ald acc levels f2a pk with
      | error x => simp [error_bind]
      | ok a =>
          rw [ok_bind, ok_bind, ih]
          cases h2 : processFields tl ald acc levels f2a pk with
          | error x => simp [error_bind]
          | ok b =>
              cases h3 : processFields ys ald acc levels f2a pk with
              | error x => simp [ok_bind, error_bind]
              | ok c => simp [ok_bind, List.append_assoc]

theorem processElems_append (xs ys : List JVal) :
    processElems (xs ++ ys) ald acc levels f2a pk =
      processElems xs ald acc levels f2a pk >>= fun a =>
        processElems ys ald acc levels f2a pk >>= fun b => .ok (a ++ b) := by
  induction xs with
  | nil =>
      cases h : processElems ys ald acc levels f2a pk <;>
        simp [processElems_nil, h, ok_bind, error_bind]
  | cons hd tl ih =>
      rw [List.cons_append]
      by_cases h1 : isDict hd = true
      · by_cases h2 : (!truthy (elemGet hd "datasetId")
            || inAccessible (elemGet hd "datasetId") acc) = true
        · rw [processElems_cons_kept h1 h2, processElems_cons_kept h1 h2]
          cases hf : filter_response hd ald acc levels f2a pk with
          | error x => simp [error_bind]
          | ok fe =>
              rw [ok_bind, ok_bind, ih]
              cases h3 : processElems tl ald acc levels f2a pk with
              | error x => simp [error_bind]
              | ok b =>
                  cases h4 : processElems ys ald acc levels f2a pk with
                  | error x => simp [ok_bind, error_bind]
                  | ok c => simp [ok_bind]
        · rw [processElems_cons_dropped h1 (by simpa using h2),
              processElems_cons_dropped h1 (by simpa using h2), ih]
      · rw [processElems_cons_notdict (by simpa using h1),
            processElems_cons_notdict (by simpa using h1), ih]

theorem alookup_eq_none_iff {l : List (String × α)} {k : String} :
    alookup l k = none ↔ k ∉ l.map Prod.fst := by
  induction l with
  | nil => simp [alookup]
  | cons hd tl ih =>
      obtain ⟨k0, v0⟩ := hd
      by_cases h : k0 = k
      · subst h; simp [alookup]
      · simp [alookup, h, ih, Ne.symm h]

theorem pure_eq_ok {ε : Type u} (a : α) : (pure a : Except ε α) = Except.ok a := rfl

theorem alookup_isSome_iff {l : List (String × α)} {k : String} :
    (alookup l k).isSome = true ↔ k ∈ l.map Prod.fst := by
  rw [Option.isSome_iff_ne_none, ne_eq, alookup_eq_none_iff, not_not]

theorem hasKey_true_iff {l : List (String × α)} {k : String} :
    hasKey l k = true ↔ k ∈ l.map Prod.fst := by
  rw [hasKey, alookup_isSome_iff]

theorem hasKey_false_iff {l : List (String × α)} {k : String} :
    hasKey l k = false ↔ k ∉ l.map Prod.fst := by
  rw [hasKey, Bool.eq_false_iff, ne_eq, alookup_isSome_iff]

/-- Each iteration of the field loop contributes nothing or a single entry
carrying its own key. -/
theorem entryStep_shape {k : String} {v : JVal} {e : List (String × JVal)}
    (h : entryStep k v ald acc levels f2a pk = .ok e) :
    e = [] ∨ ∃ w, e = [(k, w)] := by
  rw [entryStep] at h
  obtain ⟨pt, hpt, hrest⟩ := ebind_ok_iff.mp h
  cases pt with
  | true =>
      simp only [if_pos] at hrest
      right; exact ⟨v, by simpa [pure_eq_ok] using hrest.symm⟩
  | false =>
      simp only [Bool.false_eq_true, if_neg, ite_false] at hrest
      by_cases hb : (isObjOrArr v && hasKey ald (translate f2a k)) = true
      · rw [if_pos hb] at hrest
        obtain ⟨sv, hsv, hrest⟩ := ebind_ok_iff.mp hrest
        obtain ⟨pb, hpb, hrest⟩ := ebind_ok_iff.mp hrest
        by_cases hg : (inLevels sv levels && pb) = true
        · rw [if_pos hg] at hrest
          obtain ⟨fv, hfv, hrest⟩ := ebind_ok_iff.mp hrest
          right; exact ⟨fv, by simpa [pure_eq_ok] using hrest.symm⟩
        · rw [if_neg hg] at hrest
          left; simpa [pure_eq_ok] using hrest.symm
      · rw [if_neg hb] at hrest
        obtain ⟨vl, hvl, hrest⟩ := ebind_ok_iff.mp hrest
        by_cases hg : inLevels vl levels = true
        · rw [if_pos hg] at hrest
          right; exact ⟨v, by simpa [pure_eq_ok] using hrest.symm⟩
        · rw [if_neg hg] at hrest
          left; simpa [pure_eq_ok] using hrest.symm

/-- The filtered dict only contains keys of the input dict. -/
theorem processFields_keys_sub {l o : List (String × JVal)}
    (h : processFields l ald acc levels f2a pk = .ok o) :
    ∀ kv ∈ o, kv.1 ∈ l.map Prod.fst := by
  induction l generalizing o with
  | nil => rw [processFields_nil] at h; cases h; simp
  | cons hd tl ih =>
      obtain ⟨k, v⟩ := hd
      rw [processFields_cons] at h
      obtain ⟨e, he, h⟩ := ebind_ok_iff.mp h
      obtain ⟨r, hr, h⟩ := ebind_ok_iff.mp h
      cases h
      intro kv hkv
      rcases List.mem_append.mp hkv with hkv | hkv
      · rcases entryStep_shape he with h0 | ⟨w, h0⟩ <;> subst h0
        · cases hkv
        · simp only [List.mem_singleton] at hkv
          subst hkv; simp
      · simp only [List.map_cons, List.mem_cons]
        exact Or.inr (ih hr kv hkv)

theorem filter_obj_ok_iff {fields : List (String × JVal)} {r : JVal} :
    filter_response (.jobj fields) ald acc levels f2a pk = .ok r ↔
      ∃ o, processFields fields ald acc levels f2a pk = .ok o ∧ r = .jobj o := by
  rw [filter_response]
  constructor
  · intro h
    obtain ⟨o, ho, h⟩ := emap_ok_iff.mp h
    exact ⟨o, ho, h.symm⟩
  · rintro ⟨o, ho, rfl⟩
    rw [ho]; rfl

theorem filter_arr_ok_iff {elems : List JVal} {r : JVal} :
    filter_response (.jarr elems) ald acc levels f2a pk = .ok r ↔
      ∃ o, processElems elems ald acc levels f2a pk = .ok o ∧ r = .jarr o := by
  rw [filter_response]
  constructor
  · intro h
    obtain ⟨o, ho, h⟩ := emap_ok_iff.mp h
    exact ⟨o, ho, h.symm⟩
  · rintro ⟨o, ho, rfl⟩
    rw [ho]; rfl


theorem passThroughCheck_true {k : String} {sc : List (String × JVal)}
    (htop : hasKey ald (translate f2a k) = false)
    (hsc : currentScope ald pk = .ok sc)
    (habs : hasKey sc (translate f2a k) = false) :
    passThroughCheck ald f2a pk k = .ok true := by
  rw [currentScope] at hsc
  obtain ⟨v, hv, hd⟩ := ebind_ok_iff.mp hsc
  rw [passThroughCheck, hv, ok_bind, if_neg (by simp [htop]), hd, ok_bind, habs]
  rfl

/-- A field whose translated key is in neither the top-level policy dict nor
the current scope is passed through verbatim by its loop iteration. -/
theorem entryStep_passthrough {k : String} {v : JVal} {sc : List (String × JVal)}
    (htop : hasKey ald (translate f2a k) = false)
    (hsc : currentScope ald pk = .ok sc)
    (habs : hasKey sc (translate f2a k) = false) :
    entryStep k v ald acc levels f2a pk = .ok [(k, v)] := by
  rw [entryStep, passThroughCheck_true htop hsc habs, ok_bind, if_pos rfl, pure_eq_ok]

theorem processFields_passthrough_mem {fields o : List (String × JVal)}
    {key : String} {val : JVal} {sc : List (String × JVal)}
    (ho : processFields fields ald acc levels f2a pk = .ok o)
    (hmem : (key, val) ∈ fields)
    (htop : hasKey ald (translate f2a key) = false)
    (hsc : currentScope ald pk = .ok sc)
    (habs : hasKey sc (translate f2a key) = false) :
    (key, val) ∈ o := by
  induction fields generalizing o with
  | nil => cases hmem
  | cons hd tl ih =>
      obtain ⟨k, v⟩ := hd
      rw [processFields_cons] at ho
      obtain ⟨e, he, ho⟩ := ebind_ok_iff.mp ho
      obtain ⟨r, hr, ho⟩ := ebind_ok_iff.mp ho
      cases ho
      rcases List.mem_cons.mp hmem with hkv | hkv
      · obtain ⟨hk, hv⟩ := Prod.mk.injEq .. ▸ hkv
        subst hk; subst hv
        rw [entryStep_passthrough htop hsc habs] at he
        cases he
        exact List.mem_append_left _ (List.mem_singleton.mpr rfl)
      · exact List.mem_append_right _ (ih hr hkv)

/-- C1 (confirmed). Fail-open invariant of the response filter: for every
mapping node `fields` that `filter_response` successfully filters to `out`
(with any policy, any accessible-dataset list, any granted tiers `levels`, any
field-translation table and any parent key), every field of the mapping whose
translated policy key is absent both from the top-level policy dict and from
the current parent scope `sc` appears in `out` unchanged. -/
theorem C1_fail_open_passthrough
    (fields out : List (String × JVal)) (ald : List (String × JVal))
    (acc levels : List String) (f2a : List (String × String)) (pk : Option String)
    (sc : List (String × JVal)) (key : String) (val : JVal)
    (hok : filter_response (.jobj fields) ald acc levels f2a pk = .ok (.jobj out))
    (hmem : (key, val) ∈ fields)
    (htop : hasKey ald (translate f2a key) = false)
    (hsc : currentScope ald pk = .ok sc)
    (habs : hasKey sc (translate f2a key) = false) :
    (key, val) ∈ out := by
  obtain ⟨o, ho, hoe⟩ := filter_obj_ok_iff.mp hok
  cases JVal.jobj.injEq .. ▸ hoe
  exact processFields_passthrough_mem ho hmem htop hsc habs

/-- Witness for C1 at a concrete input: the field `x` is unmodeled under the
policy that only knows `p`, and survives filtering verbatim. -/
theorem C1_fail_open_passthrough_witness :
    filter_response (.jobj [("x", .jint 1)]) [("p", .jstr "PUBLIC")] [] ["PUBLIC"] [] none
        = .ok (.jobj [("x", .jint 1)])
      ∧ ("x", JVal.jint 1) ∈ [("x", JVal.jint 1)] :=
  ⟨rfl, C1_fail_open_passthrough [("x", .jint 1)] [("x", .jint 1)]
    [("p", .jstr "PUBLIC")] [] ["PUBLIC"] [] none [("p", .jstr "PUBLIC")]
    "x" (.jint 1) rfl (List.mem_singleton.mpr rfl) rfl rfl rfl⟩

/-- C2 (confirmed). Access-resolution error fork: with no registered datasets
requested and a token carrying no usable entitlements, requesting only
controlled datasets raises Unauthorised when unauthenticated and Forbidden
when authenticated, while additionally requesting public datasets succeeds
with exactly the PUBLIC grant and the public dataset ids as the visible set. -/
theorem C2_access_resolution_fork
    (token : Token) (public_data controlled_data : List Int)
    (hperm : permsTruthy token = false)
    (hctl : controlled_data ≠ []) :
    (public_data = [] →
        access_resolution token [] [] controlled_data
          = .error (if token.authenticated then .forbidden else .unauthorised))
    ∧ (public_data ≠ [] →
        access_resolution token public_data [] controlled_data
          = .ok (["PUBLIC"], public_data.toFinset)) := by
  obtain ⟨c, ctl, rfl⟩ := List.exists_cons_of_ne_nil hctl
  constructor
  · rintro rfl
    cases hauth : token.authenticated <;>
      simp [access_resolution, hperm, hauth, pure_eq_ok, ok_bind, error_bind, throw_eq_error]
  · intro hpub
    obtain ⟨p, pub, rfl⟩ := List.exists_cons_of_ne_nil hpub
    simp [access_resolution, hperm, pure_eq_ok, ok_bind]

/-- Witness for C2 at concrete inputs: an unauthenticated token without a
permissions key, controlled dataset 7, public dataset 1. -/
theorem C2_access_resolution_fork_witness :
    (access_resolution ⟨false, false, none⟩ [] [] [7] = .error .unauthorised)
      ∧ (access_resolution ⟨false, false, none⟩ [1] [] [7]
          = .ok (["PUBLIC"], ([1] : List Int).toFinset)) := by
  have h := C2_access_resolution_fork ⟨false, false, none⟩ [1] [7] rfl (by simp)
  exact ⟨by simpa using (C2_access_resolution_fork ⟨false, false, none⟩ [] [7] rfl
    (by simp)).1 rfl, h.2 (by simp)⟩

/-- Characterization of one field-loop iteration in the governed-subtree case
(lines 266-273): with the translated key in the top-level policy dict and a
dict/list value, the iteration keeps the recursively filtered subtree iff both
the summary gate and the parent gate pass, and contributes nothing otherwise. -/
theorem entryStep_subtree {k : String} {v : JVal} {e : List (String × JVal)}
    {sv : JVal} {pb : Bool}
    (hgov : hasKey ald (translate f2a k) = true)
    (hv : isObjOrArr v = true)
    (hsum : selfSummary ald (translate f2a k) = .ok sv)
    (hpar : parentGate ald levels pk k = .ok pb)
    (he : entryStep k v ald acc levels f2a pk = .ok e) :
    ((inLevels sv levels && pb) = true
        ∧ ∃ fv, filter_response v ald acc levels f2a (some (translate f2a k)) = .ok fv
            ∧ e = [(k, fv)])
      ∨ ((inLevels sv levels && pb) = false ∧ e = []) := by
  rw [entryStep] at he
  obtain ⟨pt, hpt, hrest⟩ := ebind_ok_iff.mp he
  rw [passThroughCheck] at hpt
  obtain ⟨scv, hscv, h2⟩ := ebind_ok_iff.mp hpt
  rw [if_pos hgov, pure_eq_ok] at h2
  cases h2
  rw [if_neg (by simp), if_pos (by simp [hv, hgov])] at hrest
  obtain ⟨sv2, hsv2, hrest⟩ := ebind_ok_iff.mp hrest
  rw [hsum] at hsv2
  cases hsv2
  obtain ⟨pb2, hpb2, hrest⟩ := ebind_ok_iff.mp hrest
  rw [hpar] at hpb2
  cases hpb2
  by_cases hg : (inLevels sv levels && pb) = true
  · rw [if_pos hg] at hrest
    obtain ⟨fv, hfv, hrest⟩ := ebind_ok_iff.mp hrest
    rw [pure_eq_ok] at hrest
    cases hrest
    exact Or.inl ⟨hg, fv, hfv, rfl⟩
  · rw [if_neg hg] at hrest
    rw [pure_eq_ok] at hrest
    cases hrest
    exact Or.inr ⟨Bool.eq_false_iff.mpr hg, rfl⟩

/-- C3 (confirmed). Subtree gating: in a successfully filtered mapping node
with distinct keys, a dict- or list-valued field governed by a policy subtree
(its translated key is a top-level policy key) is present in the output iff
both the subtree's own `accessLevelSummary` tier `sv` and the parent gate `pb`
(the parent scope's declared tier for the child key, `true` when there is no
parent scope) are granted; otherwise the whole subtree is omitted. -/
theorem C3_subtree_gating
    (fields out : List (String × JVal)) (ald : List (String × JVal))
    (acc levels : List String) (f2a : List (String × String)) (pk : Option String)
    (key : String) (val sv : JVal) (pb : Bool)
    (hok : filter_response (.jobj fields) ald acc levels f2a pk = .ok (.jobj out))
    (hnodup : (fields.map Prod.fst).Nodup)
    (hmem : (key, val) ∈ fields)
    (hv : isObjOrArr val = true)
    (hgov : hasKey ald (translate f2a key) = true)
    (hsum : selfSummary ald (translate f2a key) = .ok sv)
    (hpar : parentGate ald levels pk key = .ok pb) :
    key ∈ out.map Prod.fst ↔ (inLevels sv levels = true ∧ pb = true) := by
  obtain ⟨o, ho, hoe⟩ := filter_obj_ok_iff.mp hok
  cases JVal.jobj.injEq .. ▸ hoe
  obtain ⟨pre, post, rfl⟩ := List.append_of_mem hmem
  have hkeys : (pre.map Prod.fst ++ key :: post.map Prod.fst).Nodup := by
    simpa using hnodup
  have hkpre : key ∉ pre.map Prod.fst := by
    intro hk
    exact (List.disjoint_of_nodup_append hkeys) hk (List.mem_cons_self _ _)
  have hkpost : key ∉ post.map Prod.fst :=
    (List.nodup_cons.mp (List.nodup_append.mp hkeys).2.1).1
  rw [processFields_append] at ho
  obtain ⟨o1, ho1, ho⟩ := ebind_ok_iff.mp ho
  obtain ⟨o23, ho23, ho⟩ := ebind_ok_iff.mp ho
  cases ho
  rw [processFields_cons] at ho23
  obtain ⟨e, he, ho23⟩ := ebind_ok_iff.mp ho23
  obtain ⟨o3, ho3, ho23⟩ := ebind_ok_iff.mp ho23
  cases ho23
  have hno1 : key ∉ o1.map Prod.fst := by
    intro hk
    obtain ⟨kv, hkv, hfst⟩ := List.mem_map.mp hk
    exact hkpre (hfst ▸ processFields_keys_sub ho1 kv hkv)
  have hno3 : key ∉ o3.map Prod.fst := by
    intro hk
    obtain ⟨kv, hkv, hfst⟩ := List.mem_map.mp hk
    exact hkpost (hfst ▸ processFields_keys_sub ho3 kv hkv)
  rcases entryStep_subtree hgov hv hsum hpar he with ⟨hg, fv, hfv, rfl⟩ | ⟨hg, rfl⟩
  · constructor
    · intro _
      exact ⟨(Bool.and_eq_true ..).mp hg |>.1, (Bool.and_eq_true ..).mp hg |>.2⟩
    · intro _
      simp
  · constructor
    · intro hk
      simp only [List.map_append, List.map_nil, List.nil_append, List.mem_append] at hk
      rcases hk with hk | hk
      · exact absurd hk hno1
      · exact absurd hk hno3
    · rintro ⟨h1, h2⟩
      rw [h1, h2] at hg
      cases hg

/-- Witness for C3 at a concrete input: the `beacon` subtree has summary tier
PUBLIC and the user holds PUBLIC, so the subtree is present. -/
theorem C3_subtree_gating_witness :
    filter_response (.jobj [("beacon", .jobj [("id", .jstr "x")])])
        [("beacon", .jobj [("accessLevelSummary", .jstr "PUBLIC")])]
        [] ["PUBLIC"] [] none
      = .ok (.jobj [("beacon", .jobj [("id", .jstr "x")])])
    ∧ ("beacon" ∈ ([("beacon", JVal.jobj [("id", .jstr "x")])].map Prod.fst)
        ↔ (inLevels (.jstr "PUBLIC") ["PUBLIC"] = true ∧ true = true)) :=
  ⟨rfl, C3_subtree_gating [("beacon", .jobj [("id", .jstr "x")])]
    [("beacon", .jobj [("id", .jstr "x")])]
    [("beacon", .jobj [("accessLevelSummary", .jstr "PUBLIC")])]
    [] ["PUBLIC"] [] none "beacon" (.jobj [("id", .jstr "x")]) (.jstr "PUBLIC") true
    rfl (by simp) (List.mem_singleton.mpr rfl) rfl rfl rfl rfl⟩

/-- C4 counterexample. A list element that carries a `datasetId` field whose
value is the falsy empty string survives filtering even though that identity
is not a member of the accessible-dataset list: the code keeps any element
whose `datasetId` is falsy (`if not datasetId or ...`), so survival is not
equivalent to membership for elements that carry a falsy identity. -/
theorem C4_falsy_datasetId_survives_counterexample :
    filter_response (.jarr [.jobj [("datasetId", .jstr "")]]) [] ["X"] ["PUBLIC"] [] none
        = .ok (.jarr [.jobj [("datasetId", .jstr "")]])
      ∧ inAccessible (elemGet (.jobj [("datasetId", .jstr "")]) "datasetId") ["X"] = false :=
  ⟨rfl, rfl⟩

/-- C4 (amended). List-element dataset visibility: in a successfully filtered
list node, a mapping element `e` whose `datasetId` value is absent or falsy is
always kept and recursed into, while one with a truthy `datasetId` survives
iff that identity is a member of the accessible datasets; every kept element
contributes `filter_response` of the element with the same parent scope,
spliced between the filtered prefix and suffix of the list. -/
theorem C4_list_element_visibility
    (elems out pre post : List JVal) (e : JVal) (ald : List (String × JVal))
    (acc levels : List String) (f2a : List (String × String)) (pk : Option String)
    (helems : elems = pre ++ e :: post)
    (hdict : isDict e = true)
    (hok : filter_response (.jarr elems) ald acc levels f2a pk = .ok (.jarr out)) :
    ∃ o1 o3, processElems pre ald acc levels f2a pk = .ok o1
      ∧ processElems post ald acc levels f2a pk = .ok o3
      ∧ (truthy (elemGet e "datasetId") = false →
          ∃ fe, filter_response e ald acc levels f2a pk = .ok fe ∧ out = o1 ++ fe :: o3)
      ∧ (truthy (elemGet e "datasetId") = true →
          ((inAccessible (elemGet e "datasetId") acc = true →
              ∃ fe, filter_response e ald acc levels f2a pk = .ok fe ∧ out = o1 ++ fe :: o3)
            ∧ (inAccessible (elemGet e "datasetId") acc = false → out = o1 ++ o3))) := by
  subst helems
  obtain ⟨o, ho, hoe⟩ := filter_arr_ok_iff.mp hok
  cases JVal.jarr.injEq .. ▸ hoe
  rw [processElems_append] at ho
  obtain ⟨o1, ho1, ho⟩ := ebind_ok_iff.mp ho
  obtain ⟨o23, ho23, ho⟩ := ebind_ok_iff.mp ho
  cases ho
  by_cases htr : truthy (elemGet e "datasetId") = true
  · by_cases hacc : inAccessible (elemGet e "datasetId") acc = true
    · rw [processElems_cons_kept hdict (by simp [htr, hacc])] at ho23
      obtain ⟨fe, hfe, ho23⟩ := ebind_ok_iff.mp ho23
      obtain ⟨o3, ho3, ho23⟩ := ebind_ok_iff.mp ho23
      cases ho23
      exact ⟨o1, o3, ho1, ho3,
        fun hf => absurd htr (by simp [hf]),
        fun _ => ⟨fun _ => ⟨fe, hfe, rfl⟩, fun hf => absurd hacc (by simp [hf])⟩⟩
    · rw [processElems_cons_dropped hdict
        (by simp [htr, Bool.eq_false_iff.mpr hacc])] at ho23
      exact ⟨o1, o23, ho1, ho23,
        fun hf => absurd htr (by simp [hf]),
        fun _ => ⟨fun ht => absurd ht hacc, fun _ => rfl⟩⟩
  · have htr2 : truthy (elemGet e "datasetId") = false := Bool.eq_false_iff.mpr htr
    rw [processElems_cons_kept hdict (by simp [htr2])] at ho23
    obtain ⟨fe, hfe, ho23⟩ := ebind_ok_iff.mp ho23
    obtain ⟨o3, ho3, ho23⟩ := ebind_ok_iff.mp ho23
    cases ho23
    exact ⟨o1, o3, ho1, ho3,
      fun _ => ⟨fe, hfe, rfl⟩,
      fun ht => absurd ht htr⟩

/-- Witness for C4 at a concrete input: a one-element list whose element
carries the falsy identity (empty string), kept and recursively filtered even
though the identity is not in the accessible set. -/
theorem C4_list_element_visibility_witness :
    filter_response (.jarr [.jobj [("datasetId", .jstr "")]]) [] ["X"] ["PUBLIC"] [] none
        = .ok (.jarr [.jobj [("datasetId", .jstr "")]])
      ∧ (∃ o1 o3, processElems [] [] ["X"] ["PUBLIC"] [] none = .ok o1
          ∧ processElems [] [] ["X"] ["PUBLIC"] [] none = .ok o3
          ∧ (truthy (elemGet (.jobj [("datasetId", .jstr "")]) "datasetId") = false →
              ∃ fe, filter_response (.jobj [("datasetId", .jstr "")])
                    [] ["X"] ["PUBLIC"] [] none = .ok fe
                ∧ [JVal.jobj [("datasetId", .jstr "")]] = o1 ++ fe :: o3)
          ∧ (truthy (elemGet (.jobj [("datasetId", .jstr "")]) "datasetId") = true →
              ((inAccessible (elemGet (.jobj [("datasetId", .jstr "")]) "datasetId") ["X"] = true →
                  ∃ fe, filter_response (.jobj [("datasetId", .jstr "")])
                        [] ["X"] ["PUBLIC"] [] none = .ok fe
                    ∧ [JVal.jobj [("datasetId", .jstr "")]] = o1 ++ fe :: o3)
                ∧ (inAccessible (elemGet (.jobj [("datasetId", .jstr "")]) "datasetId") ["X"]
                      = false →
                    [JVal.jobj [("datasetId", .jstr "")]] = o1 ++ o3)))) :=
  ⟨rfl, C4_list_element_visibility [.jobj [("datasetId", .jstr "")]]
    [.jobj [("datasetId", .jstr "")]] [] [] (.jobj [("datasetId", .jstr "")])
    [] ["X"] ["PUBLIC"] [] none rfl rfl rfl⟩

/-- C6 counterexample. The claim says a plain token yields the 4-tuple
`("Insilico","exists",null,null)` and that a token without `:` fails with
`MalformedFilterError`. In the code, a plain token yields the two-element list
`[ontology, term]` (length 2, not 4 and no null padding), and a token without
`:` raises a plain IndexError from `filter_elements[1]` — the code defines no
`MalformedFilterError` at all. -/
theorem C6_plain_token_shape_counterexample :
    parse_filters_request ["Insilico:exists"] = .ok [["Insilico", "exists"]]
      ∧ (["Insilico", "exists"] : List String).length = 2
      ∧ parse_filters_request ["Insilico"] = .error (.indexError 1) :=
  ⟨rfl, rfl, rfl⟩

/-- C6 (amended). Filter-token parsing: splitting on `:` and scanning the
remainder for the first operator of the ordered list yields
`["Insilico","coverage",">=","30"]` for an operator token; a plain token
yields the two-element `["Insilico","exists"]`; a token with no `:` raises an
uncaught IndexError (index 1 of the one-piece split); and the ordered
first-match scan resolves the remainder `a=<b` to the operator `=` (the
documented `=<` misparse). -/
theorem C6_filter_token_parsing :
    parse_filters_request ["Insilico:coverage>=30"]
        = .ok [["Insilico", "coverage", ">=", "30"]]
      ∧ parse_filters_request ["Insilico:exists"] = .ok [["Insilico", "exists"]]
      ∧ parse_filters_request ["Insilico"] = .error (.indexError 1)
      ∧ findOp "a=<b" = some "=" :=
  ⟨rfl, rfl, rfl, rfl⟩

/-- C10 (confirmed). For every inclusion mode outside ALL/NONE/HIT/MISS,
`filter_exists` falls off the end of the function and returns Python `None`
(modelled as `none`) rather than a list. -/
theorem C10_filter_exists_fallthrough (mode : String) (datasets : List JVal)
    (h1 : mode ≠ "ALL") (h2 : mode ≠ "NONE") (h3 : mode ≠ "HIT") (h4 : mode ≠ "MISS") :
    filter_exists mode datasets = .ok none := by
  rw [filter_exists, if_neg h1, if_neg h2, if_neg h3, if_neg h4]

/-- Witness for C10 at a concrete input: an unrecognized mode returns None
even on a non-empty dataset list. -/
theorem C10_filter_exists_fallthrough_witness :
    filter_exists "BOGUS" [.jobj [("exists", .jbool true)]] = .ok none :=
  C10_filter_exists_fallthrough "BOGUS" [.jobj [("exists", .jbool true)]]
    (by decide) (by decide) (by decide) (by decide)

theorem emapM_ok_length {f : α → Except PyErr β} {l : List α} {o : List β}
    (h : emapM f l = .ok o) : o.length = l.length := by
  induction l generalizing o with
  | nil => rw [emapM] at h; cases h; rfl
  | cons a rest ih =>
      rw [emapM] at h
      obtain ⟨b, hb, h⟩ := ebind_ok_iff.mp h
      obtain ⟨r, hr, h⟩ := ebind_ok_iff.mp h
      cases h
      simp [ih hr]

/-- Selecting on `exists is X` from records whose `exists` value is uniformly
the boolean `b` keeps everything when `b = X` and nothing otherwise. -/
theorem selectByExists_homog {ds : List JVal} {b : Bool}
    (h : ∀ d ∈ ds, pySubscript d "exists" = .ok (.jbool b)) (want : Bool) :
    selectByExists ds want = .ok (if b == want then ds else []) := by
  induction ds with
  | nil => rw [selectByExists]; cases hb : b == want <;> simp
  | cons d rest ih =>
      rw [selectByExists, h d (List.mem_cons_self _ _), ok_bind,
        ih (fun x hx => h x (List.mem_cons_of_mem _ hx)), ok_bind]
      have hbw : isTheBool (.jbool b) want = (b == want) := rfl
      cases hb : b == want <;> simp [hbw, hb]

theorem selectByExists_append {xs ys xo yo : List JVal} {want : Bool}
    (hx : selectByExists xs want = .ok xo) (hy : selectByExists ys want = .ok yo) :
    selectByExists (xs ++ ys) want = .ok (xo ++ yo) := by
  induction xs generalizing xo with
  | nil => rw [selectByExists] at hx; cases hx; simpa using hy
  | cons d rest ih =>
      rw [selectByExists] at hx
      obtain ⟨e, he, hx⟩ := ebind_ok_iff.mp hx
      obtain ⟨r, hr, hx⟩ := ebind_ok_iff.mp hx
      by_cases ht : isTheBool e want = true
      · rw [if_pos ht] at hx
        cases hx
        rw [List.cons_append, selectByExists, he, ok_bind, ih hr, ok_bind, if_pos ht]
        rfl
      · rw [if_neg ht] at hx
        cases hx
        rw [List.cons_append, selectByExists, he, ok_bind, ih hr, ok_bind, if_neg ht]

theorem exists_of_transform_misses (stableId : String) (datasetId : Int) (accessType : String) :
    pySubscript (transform_misses stableId datasetId accessType) "exists" = .ok (.jbool false) := rfl

theorem any_eqInt_map {hids : List Int} {x : Int} :
    ((hids.map JVal.jint).any (fun h => eqInt h x)) = decide (x ∈ hids) := by
  induction hids with
  | nil => simp
  | cons m rest ih =>
      rw [List.map_cons, List.any_cons]
      have h1 : eqInt (JVal.jint m) x = decide (m = x) := rfl
      rw [h1, ih]
      by_cases hm : m = x
      · subst hm; simp
      · simp [hm, Ne.symm hm]

theorem filter_not_mem_length (visible hids : List Int)
    (hnv : visible.Nodup) (hnh : hids.Nodup) (hsub : ∀ i ∈ hids, i ∈ visible) :
    (visible.filter (fun x => !decide (x ∈ hids))).length = visible.length - hids.length := by
  have hfin : hids.toFinset ⊆ visible.toFinset := by
    intro a ha
    rw [List.mem_toFinset] at ha ⊢
    exact hsub a ha
  have h1 : (visible.filter (fun x => !decide (x ∈ hids))).toFinset
      = visible.toFinset \ hids.toFinset := by
    ext a
    simp [List.mem_filter, List.mem_toFinset]
  have h2 : (visible.filter (fun x => !decide (x ∈ hids))).Nodup := hnv.filter _
  rw [← List.toFinset_card_of_nodup h2, h1, Finset.card_sdiff hfin,
    List.toFinset_card_of_nodup hnv, List.toFinset_card_of_nodup hnh]

/-- C5 (confirmed). Reconciliation completeness per variant: with the hit
records carrying distinct internal ids `hids` drawn from the visible set, miss
records synthesized for `visible` minus `hids` (one metadata record per
missing id, supplied by `meta`), the filtered result has size `|visible|` for
ALL, `|hits|` for HIT, `|visible| - |hids|` for MISS, and is empty for NONE. -/
theorem C5_reconciliation_sizes
    (hits : List JVal) (visible hids : List Int) (meta : Int → String × String)
    (hinternal : emapM (fun r => pySubscript r "internalId") hits = .ok (hids.map JVal.jint))
    (hex : ∀ h ∈ hits, pySubscript h "exists" = .ok (.jbool true))
    (hnh : hids.Nodup) (hnv : visible.Nodup)
    (hsub : ∀ i ∈ hids, i ∈ visible) :
    (reconcile_variant hits visible meta "ALL").map (Option.map List.length)
        = .ok (some visible.length)
      ∧ (reconcile_variant hits visible meta "HIT").map (Option.map List.length)
        = .ok (some hits.length)
      ∧ (reconcile_variant hits visible meta "MISS").map (Option.map List.length)
        = .ok (some (visible.length - hids.length))
      ∧ reconcile_variant hits visible meta "NONE" = .ok (some []) := by
  have hlen : hits.length = hids.length := by
    have := emapM_ok_length hinternal
    simpa using this.symm
  have hle : hids.length ≤ visible.length := by
    have hfin : hids.toFinset ⊆ visible.toFinset := by
      intro a ha
      rw [List.mem_toFinset] at ha ⊢
      exact hsub a ha
    have := Finset.card_le_card hfin
    rwa [List.toFinset_card_of_nodup hnh, List.toFinset_card_of_nodup hnv] at this
  have hmisslen :
      (visible.filter (fun x => !((hids.map JVal.jint).any (fun h => eqInt h x)))).length
        = visible.length - hids.length := by
    have : (fun x => !((hids.map JVal.jint).any (fun h => eqInt h x)))
        = (fun x => !decide (x ∈ hids)) := by
      funext x
      rw [any_eqInt_map]
    rw [this]
    exact filter_not_mem_length visible hids hnv hnh hsub
  have hmissex : ∀ m ∈ (visible.filter
      (fun x => !((hids.map JVal.jint).any (fun h => eqInt h x)))).map
        (fun id => transform_misses (meta id).1 id (meta id).2),
      pySubscript m "exists" = .ok (.jbool false) := by
    intro m hm
    obtain ⟨id, _, rfl⟩ := List.mem_map.mp hm
    exact exists_of_transform_misses _ _ _
  refine ⟨?_, ?_, ?_, ?_⟩
  · rw [reconcile_variant, if_pos (Or.inl rfl), hinternal, ok_bind]
    simp only [pure_eq_ok, ok_bind]
    rw [filter_exists, if_pos rfl]
    simp only [Except.map, Option.map_some', List.length_append, List.length_map, hlen, hmisslen]
    rw [Nat.add_sub_cancel' hle]
  · rw [reconcile_variant, if_neg (by decide)]
    simp only [pure_eq_ok, ok_bind]
    rw [filter_exists, if_neg (by decide), if_neg (by decide), if_pos rfl,
      selectByExists_homog hex true]
    simp [Except.map]
  · rw [reconcile_variant, if_pos (Or.inr rfl), hinternal, ok_bind]
    simp only [pure_eq_ok, ok_bind]
    rw [filter_exists, if_neg (by decide), if_neg (by decide), if_neg (by decide),
      if_pos rfl,
      selectByExists_append (selectByExists_homog hex false) (selectByExists_homog hmissex false)]
    simp only [Except.map, Option.map_some', List.length_append, List.length_map]
    simp [hmisslen]
  · rw [reconcile_variant, if_neg (by decide)]
    simp only [pure_eq_ok, ok_bind]
    rw [filter_exists, if_neg (by decide), if_pos rfl]

/-- Witness for C5 at concrete inputs: one hit with internal id 1, visible ids
1 and 2. ALL gives 2 records, HIT 1, MISS 1, NONE none. -/
theorem C5_reconciliation_sizes_witness :
    (reconcile_variant [.jobj [("internalId", .jint 1), ("exists", .jbool true)]]
          [1, 2] (fun _ => ("D", "PUBLIC")) "ALL").map (Option.map List.length)
        = .ok (some 2)
      ∧ (reconcile_variant [.jobj [("internalId", .jint 1), ("exists", .jbool true)]]
          [1, 2] (fun _ => ("D", "PUBLIC")) "HIT").map (Option.map List.length)
        = .ok (some 1)
      ∧ (reconcile_variant [.jobj [("internalId", .jint 1), ("exists", .jbool true)]]
          [1, 2] (fun _ => ("D", "PUBLIC")) "MISS").map (Option.map List.length)
        = .ok (some 1)
      ∧ reconcile_variant [.jobj [("internalId", .jint 1), ("exists", .jbool true)]]
          [1, 2] (fun _ => ("D", "PUBLIC")) "NONE" = .ok (some []) := by
  have h := C5_reconciliation_sizes
    [.jobj [("internalId", .jint 1), ("exists", .jbool true)]] [1, 2] [1]
    (fun _ => ("D", "PUBLIC")) rfl
    (by
      intro x hx
      rw [List.mem_singleton] at hx
      subst hx
      rfl)
    (by decide) (by decide) (by decide)
  simpa using h

theorem processFields_unmod {fields : List (String × JVal)}
    (h : unmodFields ald f2a fields = true) :
    processFields fields ald acc levels f2a none = .ok fields := by
  induction fields with
  | nil => rfl
  | cons hd tl ih =>
      obtain ⟨k, v⟩ := hd
      rw [unmodFields, Bool.and_eq_true] at h
      have h1 : hasKey ald (translate f2a k) = false := by
        simpa using h.1
      rw [processFields_cons,
        entryStep_passthrough h1 (show currentScope ald none = .ok ald from rfl) h1,
        ok_bind, ih h.2, ok_bind]
      rfl

theorem unmodElems_mem {l : List JVal} {e : JVal}
    (h : unmodElems ald f2a l = true) (he : e ∈ l) : unmodJ ald f2a e = true := by
  induction l with
  | nil => cases he
  | cons hd tl ih =>
      rw [unmodElems, Bool.and_eq_true] at h
      rcases List.mem_cons.mp he with rfl | he2
      · exact h.1
      · exact ih h.2 he2

theorem processElems_ok_of_each {l : List JVal}
    (h : ∀ e ∈ l, isDict e = true →
      ∃ v, filter_response e ald acc levels f2a pk = .ok v) :
    ∃ out, processElems l ald acc levels f2a pk = .ok out := by
  induction l with
  | nil => exact ⟨[], rfl⟩
  | cons e rest ih =>
      obtain ⟨out, hout⟩ := ih (fun x hx => h x (List.mem_cons_of_mem _ hx))
      by_cases hd : isDict e = true
      · by_cases hkeep : (!truthy (elemGet e "datasetId")
            || inAccessible (elemGet e "datasetId") acc) = true
        · obtain ⟨fe, hfe⟩ := h e (List.mem_cons_self _ _) hd
          exact ⟨fe :: out, by rw [processElems_cons_kept hd hkeep, hfe, ok_bind, hout, ok_bind]⟩
        · exact ⟨out, by
            rw [processElems_cons_dropped hd (Bool.eq_false_iff.mpr hkeep), hout]⟩
      · exact ⟨out, by rw [processElems_cons_notdict (Bool.eq_false_iff.mpr hd), hout]⟩

theorem filter_response_unmod_aux :
    ∀ n r, sizeOf r ≤ n → unmodJ ald f2a r = true →
      ∃ v, filter_response r ald acc levels f2a none = .ok v := by
  intro n
  induction n with
  | zero =>
      intro r hr _
      cases r <;> simp at hr
  | succ n ih =>
      intro r hr hu
      cases r with
      | jobj fields =>
          rw [unmodJ] at hu
          exact ⟨.jobj fields, by rw [filter_response, processFields_unmod hu]; rfl⟩
      | jarr elems =>
          rw [unmodJ] at hu
          have helem : ∀ e ∈ elems, isDict e = true →
              ∃ v, filter_response e ald acc levels f2a none = .ok v := by
            intro e he _
            refine ih e ?_ (unmodElems_mem hu he)
            have h1 := List.sizeOf_lt_of_mem he
            have h2 : sizeOf (JVal.jarr elems) = 1 + sizeOf elems := by simp
            omega
          obtain ⟨out, hout⟩ := processElems_ok_of_each helem
          exact ⟨.jarr out, by rw [filter_response, hout]; rfl⟩
      | jnull => exact ⟨.jobj [], rfl⟩
      | jbool b => exact ⟨.jobj [], rfl⟩
      | jint i => exact ⟨.jobj [], rfl⟩
      | jstr s => exact ⟨.jobj [], rfl⟩

/-- C8 counterexample. The claim says the only exception `filter_response` may
raise is a `PolicyConfigError` for a structurally inconsistent policy tree.
The code defines no such error: on a policy scope lacking
`accessLevelSummary`, the lookup at line 269 raises a plain KeyError. -/
theorem C8_policy_keyerror_counterexample :
    filter_response (.jobj [("foo", .jobj [])]) [("foo", .jobj [])] [] [] [] none
      = .error (.keyError "accessLevelSummary") := rfl

/-- C8 (amended). Fail-open no-throw half of the failure policy: on any
response tree none of whose reachable dict fields has a translated key in the
top-level policy dict (so every field takes the pass-through branch, and list
elements recurse), a top-level `filter_response` call cannot raise — it
returns a value for every accessible-dataset list and every granted-tier
list. (The other half of the claim is false: the code has no PolicyConfigError;
on an inconsistent policy it raises a plain KeyError, see the counterexample.) -/
theorem C8_unmodeled_no_throw (r : JVal) (ald : List (String × JVal))
    (acc levels : List String) (f2a : List (String × String))
    (h : unmodJ ald f2a r = true) :
    ∃ v, filter_response r ald acc levels f2a none = .ok v :=
  filter_response_unmod_aux (sizeOf r) r le_rfl h

/-- Witness for C8 at a concrete input: a response whose only field `x` is not
a policy key is filtered without error. -/
theorem C8_unmodeled_no_throw_witness :
    ∃ v, filter_response (.jobj [("x", .jint 1)]) [("p", .jstr "L")] [] [] [] none = .ok v :=
  C8_unmodeled_no_throw (.jobj [("x", .jint 1)]) [("p", .jstr "L")] [] [] [] rfl


/-- C7 counterexample. The claim says an `exists` flag is reported for every
variant. The element assembled per variant (genomic_region.py lines 234-243)
has exactly the keys `variantDetails`, `datasetAlleleResponses`,
`variantAnnotations`, `variantHandover`, `info` — there is no per-variant
`exists` key; the only `exists` flag is the single top-level one of line 341. -/
theorem C7_no_pervariant_exists_counterexample :
    keysOf (final_variantsFound_element .jnull [] .jnull .jnull .jnull)
        = ["variantDetails", "datasetAlleleResponses", "variantAnnotations",
           "variantHandover", "info"]
      ∧ "exists" ∉ keysOf (final_variantsFound_element .jnull [] .jnull .jnull .jnull) :=
  ⟨rfl, by decide⟩

theorem emapM_truthy_exists {ds : List JVal}
    (h : ∀ d ∈ ds, ∃ e, pySubscript d "exists" = .ok e) :
    ∃ bs, emapM (fun d => do
        let e ← pySubscript d "exists"
        pure (truthy e)) ds = .ok bs
      ∧ (bs.any id = true
          ↔ ∃ d ∈ ds, ∃ e, pySubscript d "exists" = .ok e ∧ truthy e = true) := by
  induction ds with
  | nil => exact ⟨[], rfl, by simp⟩
  | cons d rest ih =>
      obtain ⟨e, he⟩ := h d (List.mem_cons_self _ _)
      obtain ⟨bs, hbs, hiff⟩ := ih (fun x hx => h x (List.mem_cons_of_mem _ hx))
      refine ⟨truthy e :: bs, by rw [emapM, he, ok_bind, pure_eq_ok, ok_bind, hbs, ok_bind], ?_⟩
      rw [List.any_cons]
      constructor
      · intro hor
        rcases Bool.or_eq_true .. ▸ hor with ht | ht
        · exact ⟨d, List.mem_cons_self _ _, e, he, by simpa using ht⟩
        · obtain ⟨x, hx, ex, hex, hte⟩ := hiff.mp ht
          exact ⟨x, List.mem_cons_of_mem _ hx, ex, hex, hte⟩
      · rintro ⟨x, hx, ex, hex, hte⟩
        rcases List.mem_cons.mp hx with rfl | hx2
        · rw [he] at hex
          cases hex
          simp [hte]
        · exact Bool.or_eq_true .. ▸ Or.inr (hiff.mpr ⟨x, hx2, ex, hex, hte⟩)

/-- C7 (amended). There is no per-variant `exists` flag (see the
counterexample); instead the single top-level `exists` of line 341 is computed
across all variants: whenever every variant carries a `datasetAlleleResponses`
list and every entry carries an `exists` value, `beacon_exists` succeeds and
is true iff at least one entry of some variant has a truthy `exists`. In
particular `filter_exists` with mode NONE yields the empty per-variant list
(so the top-level flag is false), while the variant element itself is still
assembled with its five keys even when its response list is empty. -/
theorem C7_exists_reporting (variantsFound : List JVal) (dars : JVal → List JVal)
    (h : ∀ v ∈ variantsFound,
      pySubscript v "datasetAlleleResponses" = .ok (.jarr (dars v)))
    (hex : ∀ v ∈ variantsFound, ∀ d ∈ dars v, ∃ e, pySubscript d "exists" = .ok e) :
    (∃ b, beacon_exists variantsFound = .ok b
        ∧ (b = true ↔ ∃ v ∈ variantsFound, ∃ d ∈ dars v,
            ∃ e, pySubscript d "exists" = .ok e ∧ truthy e = true))
      ∧ (∀ ds : List JVal, filter_exists "NONE" ds = .ok (some []))
      ∧ (∀ vd cb db vh, keysOf (final_variantsFound_element vd [] cb db vh)
          = ["variantDetails", "datasetAlleleResponses", "variantAnnotations",
             "variantHandover", "info"]) := by
  refine ⟨?_, fun ds => rfl, fun vd cb db vh => rfl⟩
  suffices hs : ∃ flags, emapM (fun v => do
      let dar ← pySubscript v "datasetAlleleResponses"
      match dar with
      | .jarr l => emapM (fun d => do
          let e ← pySubscript d "exists"
          pure (truthy e)) l
      | _ => .error .typeError) variantsFound = .ok flags
      ∧ (flags.flatten.any id = true ↔ ∃ v ∈ variantsFound, ∃ d ∈ dars v,
          ∃ e, pySubscript d "exists" = .ok e ∧ truthy e = true) by
    obtain ⟨flags, hflags, hiff⟩ := hs
    exact ⟨flags.flatten.any id,
      by rw [beacon_exists, hflags, ok_bind, pure_eq_ok], hiff⟩
  induction variantsFound with
  | nil => exact ⟨[], rfl, by simp⟩
  | cons v rest ih =>
      obtain ⟨bs, hbs, hbsiff⟩ :=
        emapM_truthy_exists (hex v (List.mem_cons_self _ _))
      obtain ⟨flags, hflags, hiff⟩ := ih
        (fun x hx => h x (List.mem_cons_of_mem _ hx))
        (fun x hx => hex x (List.mem_cons_of_mem _ hx))
      refine ⟨bs :: flags, ?_, ?_⟩
      · rw [emapM, h v (List.mem_cons_self _ _), ok_bind]
        show (emapM _ (dars v) >>= _) = _
        rw [hbs, ok_bind, hflags, ok_bind]
      · rw [List.flatten_cons, List.any_append]
        constructor
        · intro hor
          rcases Bool.or_eq_true .. ▸ hor with ht | ht
          · obtain ⟨d, hd, ex, hex2, hte⟩ := hbsiff.mp ht
            exact ⟨v, List.mem_cons_self _ _, d, hd, ex, hex2, hte⟩
          · obtain ⟨x, hx, d, hd, ex, hex2, hte⟩ := hiff.mp ht
            exact ⟨x, List.mem_cons_of_mem _ hx, d, hd, ex, hex2, hte⟩
        · rintro ⟨x, hx, d, hd, ex, hex2, hte⟩
          rcases List.mem_cons.mp hx with rfl | hx2
          · exact Bool.or_eq_true .. ▸ Or.inl (hbsiff.mpr ⟨d, hd, ex, hex2, hte⟩)
          · exact Bool.or_eq_true .. ▸ Or.inr (hiff.mpr ⟨x, hx2, d, hd, ex, hex2, hte⟩)

/-- Witness for C7 at a concrete input: one variant whose single response entry
has `exists = true`; the top-level flag is true. -/
theorem C7_exists_reporting_witness :
    (∃ b, beacon_exists
          [final_variantsFound_element .jnull [.jobj [("exists", .jbool true)]]
            .jnull .jnull .jnull] = .ok b
        ∧ (b = true ↔ ∃ v ∈ [final_variantsFound_element .jnull
              [.jobj [("exists", .jbool true)]] .jnull .jnull .jnull],
            ∃ d ∈ [JVal.jobj [("exists", .jbool true)]],
            ∃ e, pySubscript d "exists" = .ok e ∧ truthy e = true))
      ∧ (∀ ds : List JVal, filter_exists "NONE" ds = .ok (some []))
      ∧ (∀ vd cb db vh, keysOf (final_variantsFound_element vd [] cb db vh)
          = ["variantDetails", "datasetAlleleResponses", "variantAnnotations",
             "variantHandover", "info"]) :=
  C7_exists_reporting
    [final_variantsFound_element .jnull [.jobj [("exists", .jbool true)]]
      .jnull .jnull .jnull]
    (fun _ => [JVal.jobj [("exists", .jbool true)]])
    (by
      intro v hv
      rw [List.mem_singleton] at hv
      subst hv
      rfl)
    (by
      intro v hv d hd
      rw [List.mem_singleton] at hd
      subst hd
      exact ⟨.jbool true, rfl⟩)

theorem filter_preserves_isDict {v fv : JVal}
    (hd : isDict v = true) (h : filter_response v ald acc levels f2a pk = .ok fv) :
    isDict fv = true := by
  cases v with
  | jobj fl =>
      obtain ⟨o, _, rfl⟩ := filter_obj_ok_iff.mp h
      rfl
  | _ => simp [isDict] at hd

theorem filter_preserves_objOrArr {v fv : JVal}
    (hd : isObjOrArr v = true) (h : filter_response v ald acc levels f2a pk = .ok fv) :
    isObjOrArr fv = true := by
  cases v with
  | jobj fl =>
      obtain ⟨o, _, rfl⟩ := filter_obj_ok_iff.mp h
      rfl
  | jarr el =>
      obtain ⟨o, _, rfl⟩ := filter_arr_ok_iff.mp h
      rfl
  | _ => simp [isObjOrArr] at hd

theorem wfJ_obj {fl : List (String × JVal)} (h : wfJ (.jobj fl) = true) :
    (fl.map Prod.fst).Nodup ∧ wfFields fl = true := by
  rw [wfJ, Bool.and_eq_true] at h
  exact ⟨of_decide_eq_true h.1, h.2⟩

theorem wfJ_arr {el : List JVal} (h : wfJ (.jarr el) = true) : wfElems el = true := h

theorem wfFields_mem {fl : List (String × JVal)} {k : String} {v : JVal}
    (h : wfFields fl = true) (hm : (k, v) ∈ fl) : wfJ v = true := by
  induction fl with
  | nil => cases hm
  | cons hd tl ih =>
      obtain ⟨k0, v0⟩ := hd
      rw [wfFields, Bool.and_eq_true] at h
      rcases List.mem_cons.mp hm with heq | hm2
      · cases heq
        exact h.1
      · exact ih h.2 hm2

theorem wfElems_mem {el : List JVal} {e : JVal}
    (h : wfElems el = true) (hm : e ∈ el) : wfJ e = true := by
  induction el with
  | nil => cases hm
  | cons hd tl ih =>
      rw [wfElems, Bool.and_eq_true] at h
      rcases List.mem_cons.mp hm with rfl | hm2
      · exact h.1
      · exact ih h.2 hm2

theorem inAccessible_jstr {v : JVal} {acc : List String}
    (h : inAccessible v acc = true) : ∃ s, v = .jstr s := by
  rw [inAccessible, List.any_eq_true] at h
  obtain ⟨a, _, ha⟩ := h
  cases v with
  | jstr t => exact ⟨t, rfl⟩
  | _ => simp [eqStr] at ha

theorem truthy_false_obj {fl : List (String × JVal)}
    (h : truthy (.jobj fl) = false) : fl = [] := by
  rw [truthy] at h
  simpa using h

theorem truthy_false_arr {el : List JVal}
    (h : truthy (.jarr el) = false) : el = [] := by
  rw [truthy] at h
  simpa using h

/-- Full case analysis of one field-loop iteration: it contributes nothing, or
a single entry whose value is either the original value (pass-through and
governed-leaf branches) or the recursively filtered subtree. -/
theorem entryStep_cases {k : String} {v : JVal} {e : List (String × JVal)}
    (he : entryStep k v ald acc levels f2a pk = .ok e) :
    e = [] ∨ ∃ w, e = [(k, w)]
      ∧ (w = v ∨ (isObjOrArr v = true
          ∧ filter_response v ald acc levels f2a (some (translate f2a k)) = .ok w)) := by
  rw [entryStep] at he
  obtain ⟨pt, hpt, hrest⟩ := ebind_ok_iff.mp he
  cases pt with
  | true =>
      simp only [if_pos] at hrest
      right
      exact ⟨v, by simpa [pure_eq_ok] using hrest.symm, Or.inl rfl⟩
  | false =>
      simp only [Bool.false_eq_true, if_neg, ite_false] at hrest
      by_cases hb : (isObjOrArr v && hasKey ald (translate f2a k)) = true
      · rw [if_pos hb] at hrest
        obtain ⟨sv, hsv, hrest⟩ := ebind_ok_iff.mp hrest
        obtain ⟨pb, hpb, hrest⟩ := ebind_ok_iff.mp hrest
        by_cases hg : (inLevels sv levels && pb) = true
        · rw [if_pos hg] at hrest
          obtain ⟨fv, hfv, hrest⟩ := ebind_ok_iff.mp hrest
          right
          exact ⟨fv, by simpa [pure_eq_ok] using hrest.symm,
            Or.inr ⟨(Bool.and_eq_true .. |>.mp hb).1, hfv⟩⟩
        · rw [if_neg hg] at hrest
          left
          simpa [pure_eq_ok] using hrest.symm
      · rw [if_neg hb] at hrest
        obtain ⟨vl, hvl, hrest⟩ := ebind_ok_iff.mp hrest
        by_cases hg : inLevels vl levels = true
        · rw [if_pos hg] at hrest
          right
          exact ⟨v, by simpa [pure_eq_ok] using hrest.symm, Or.inl rfl⟩
        · rw [if_neg hg] at hrest
          left
          simpa [pure_eq_ok] using hrest.symm

/-- Re-running a field-loop iteration on the entry it kept keeps the entry
unchanged: the gating conditions depend only on the policy and the key, and
the value is either unchanged or already a filtered fixpoint (by `hIH`). -/
theorem entryStep_idem {k : String} {v w : JVal}
    (hIH : ∀ pk1 fv, filter_response v ald acc levels f2a pk1 = .ok fv →
        filter_response fv ald acc levels f2a pk1 = .ok fv)
    (he : entryStep k v ald acc levels f2a pk = .ok [(k, w)]) :
    entryStep k w ald acc levels f2a pk = .ok [(k, w)] := by
  rw [entryStep] at he
  obtain ⟨pt, hpt, hrest⟩ := ebind_ok_iff.mp he
  cases pt with
  | true =>
      simp only [if_pos, pure_eq_ok, Except.ok.injEq] at hrest
      obtain ⟨rfl⟩ : v = w := by
        cases hrest
        rfl
      rw [entryStep, hpt, ok_bind, if_pos rfl, pure_eq_ok]
  | false =>
      simp only [Bool.false_eq_true, if_neg, ite_false] at hrest
      by_cases hb : (isObjOrArr v && hasKey ald (translate f2a k)) = true
      · rw [if_pos hb] at hrest
        obtain ⟨sv, hsv, hrest⟩ := ebind_ok_iff.mp hrest
        obtain ⟨pb, hpb, hrest⟩ := ebind_ok_iff.mp hrest
        by_cases hg : (inLevels sv levels && pb) = true
        · rw [if_pos hg] at hrest
          obtain ⟨fv, hfv, hrest⟩ := ebind_ok_iff.mp hrest
          rw [pure_eq_ok, Except.ok.injEq] at hrest
          have hfw : fv = w := by
            cases hrest
            rfl
          subst hfw
          have hw : isObjOrArr fv = true :=
            filter_preserves_objOrArr (Bool.and_eq_true .. |>.mp hb).1 hfv
          rw [entryStep, hpt, ok_bind, if_neg (by simp),
            if_pos (by simp [hw, (Bool.and_eq_true .. |>.mp hb).2]),
            hsv, ok_bind, hpb, ok_bind, if_pos hg, hIH _ fv hfv, ok_bind, pure_eq_ok]
        · rw [if_neg hg, pure_eq_ok] at hrest
          cases hrest
      · rw [if_neg hb] at hrest
        obtain ⟨vl, hvl, hrest⟩ := ebind_ok_iff.mp hrest
        by_cases hg : inLevels vl levels = true
        · rw [if_pos hg, pure_eq_ok, Except.ok.injEq] at hrest
          obtain ⟨rfl⟩ : v = w := by
            cases hrest
            rfl
          rw [entryStep, hpt, ok_bind, if_neg (by simp), if_neg hb, hvl, ok_bind,
            if_pos hg, pure_eq_ok]
        · rw [if_neg hg, pure_eq_ok] at hrest
          cases hrest

/-- Re-filtering an already-filtered field list is the identity. -/
theorem processFields_idem {fl o : List (String × JVal)}
    (hIHall : ∀ kv ∈ fl, ∀ pk1 fv,
      filter_response kv.2 ald acc levels f2a pk1 = .ok fv →
        filter_response fv ald acc levels f2a pk1 = .ok fv)
    (ho : processFields fl ald acc levels f2a pk = .ok o) :
    processFields o ald acc levels f2a pk = .ok o := by
  induction fl generalizing o with
  | nil =>
      rw [processFields_nil] at ho
      cases ho
      rfl
  | cons hd tl ih =>
      obtain ⟨k, v⟩ := hd
      rw [processFields_cons] at ho
      obtain ⟨e, he, ho⟩ := ebind_ok_iff.mp ho
      obtain ⟨r, hr, ho⟩ := ebind_ok_iff.mp ho
      cases ho
      have hrr := ih (fun kv hkv => hIHall kv (List.mem_cons_of_mem _ hkv)) hr
      rcases entryStep_shape he with rfl | ⟨w, rfl⟩
      · simpa using hrr
      · have hew : entryStep k w ald acc levels f2a pk = .ok [(k, w)] :=
          entryStep_idem (hIHall (k, v) (List.mem_cons_self _ _)) he
        rw [List.singleton_append, processFields_cons, hew, ok_bind, hrr, ok_bind]
        rfl

/-- Filtering a dict with distinct keys relates lookups in output and input:
a key absent from the input is absent from the output; a key present in the
input is dropped or mapped to what its loop iteration kept. -/
theorem processFields_alookup {fl o : List (String × JVal)}
    (hnd : (fl.map Prod.fst).Nodup)
    (ho : processFields fl ald acc levels f2a pk = .ok o) (key : String) :
    (alookup fl key = none → alookup o key = none)
    ∧ (∀ v0, alookup fl key = some v0 →
        alookup o key = none
          ∨ ∃ w, alookup o key = some w
              ∧ entryStep key v0 ald acc levels f2a pk = .ok [(key, w)]) := by
  induction fl generalizing o with
  | nil =>
      rw [processFields_nil] at ho
      cases ho
      exact ⟨fun _ => rfl, fun v0 hv0 => by cases hv0⟩
  | cons hd tl ih =>
      obtain ⟨k, v⟩ := hd
      rw [processFields_cons] at ho
      obtain ⟨e, he, ho⟩ := ebind_ok_iff.mp ho
      obtain ⟨r, hr, ho⟩ := ebind_ok_iff.mp ho
      cases ho
      rw [List.map_cons, List.nodup_cons] at hnd
      by_cases hk : k = key
      · subst hk
        constructor
        · intro hnone
          rw [alookup, if_pos rfl] at hnone
          cases hnone
        · intro v0 hv0
          rw [alookup, if_pos rfl] at hv0
          cases hv0
          have hrnone : alookup r k = none := by
            rw [alookup_eq_none_iff]
            intro hkr
            obtain ⟨kv, hkv, hfst⟩ := List.mem_map.mp hkr
            exact hnd.1 (hfst ▸ processFields_keys_sub hr kv hkv)
          rcases entryStep_shape he with rfl | ⟨w, rfl⟩
          · left
            simpa using hrnone
          · right
            exact ⟨w, by rw [List.singleton_append, alookup, if_pos rfl], he⟩
      · have hskip : alookup (e ++ r) key = alookup r key := by
          rcases entryStep_shape he with rfl | ⟨w, rfl⟩
          · rfl
          · rw [List.singleton_append, alookup, if_neg hk]
        have htl := ih hnd.2 hr
        constructor
        · intro hnone
          rw [alookup, if_neg hk] at hnone
          rw [hskip]
          exact htl.1 hnone
        · intro v0 hv0
          rw [alookup, if_neg hk] at hv0
          rw [hskip]
          exact htl.2 v0 hv0

/-- The keep condition of the list branch survives re-filtering: a kept
element's filtered form still has an absent/falsy `datasetId` or one inside
the accessible set. -/
theorem keep_preserved {e fe : JVal}
    (hwf : wfJ e = true) (hd : isDict e = true)
    (hkeep : (!truthy (elemGet e "datasetId")
        || inAccessible (elemGet e "datasetId") acc) = true)
    (hfe : filter_response e ald acc levels f2a pk = .ok fe) :
    (!truthy (elemGet fe "datasetId")
        || inAccessible (elemGet fe "datasetId") acc) = true := by
  cases e with
  | jobj fl =>
      obtain ⟨o, ho, rfl⟩ := filter_obj_ok_iff.mp hfe
      have hcorr := processFields_alookup (wfJ_obj hwf).1 ho "datasetId"
      cases hav : alookup fl "datasetId" with
      | none =>
          have : alookup o "datasetId" = none := hcorr.1 hav
          simp [elemGet, this, truthy]
      | some v0 =>
          rcases hcorr.2 v0 hav with hnone | ⟨w, hw, hentry⟩
          · simp [elemGet, hnone, truthy]
          · have hgete : elemGet (.jobj fl) "datasetId" = v0 := by
              simp [elemGet, hav]
            have hgetf : elemGet (.jobj o) "datasetId" = w := by
              simp [elemGet, hw]
            rw [hgete] at hkeep
            rw [hgetf]
            rcases entryStep_cases hentry with hnil | ⟨w2, hw2, hval⟩
            · exact absurd hnil (by simp)
            · simp only [List.cons.injEq, Prod.mk.injEq, true_and, and_true] at hw2
              subst hw2
              rcases hval with rfl | ⟨hoa, hfil⟩
              · exact hkeep
              · rcases Bool.or_eq_true .. ▸ hkeep with htr | hacc
                · have htr2 : truthy v0 = false := by
                    simpa using htr
                  cases v0 with
                  | jobj fl2 =>
                      cases truthy_false_obj htr2
                      have hwval : w = .jobj [] := by
                        obtain ⟨o2, ho2, rfl⟩ := filter_obj_ok_iff.mp hfil
                        rw [processFields_nil] at ho2
                        cases ho2
                        rfl
                      subst hwval
                      rfl
                  | jarr el2 =>
                      cases truthy_false_arr htr2
                      have hwval : w = .jarr [] := by
                        obtain ⟨o2, ho2, rfl⟩ := filter_arr_ok_iff.mp hfil
                        rw [processElems_nil] at ho2
                        cases ho2
                        rfl
                      subst hwval
                      rfl
                  | jnull => simp [isObjOrArr] at hoa
                  | jbool b2 => simp [isObjOrArr] at hoa
                  | jint i2 => simp [isObjOrArr] at hoa
                  | jstr s2 => simp [isObjOrArr] at hoa
                · obtain ⟨str, rfl⟩ := inAccessible_jstr hacc
                  simp [isObjOrArr] at hoa
  | jnull => simp [isDict] at hd
  | jbool b0 => simp [isDict] at hd
  | jint i0 => simp [isDict] at hd
  | jstr s0 => simp [isDict] at hd
  | jarr el0 => simp [isDict] at hd

/-- Re-filtering an already-filtered element list is the identity. -/
theorem processElems_idem {l o : List JVal}
    (hwfall : ∀ e ∈ l, wfJ e = true)
    (hIHall : ∀ e ∈ l, ∀ pk1 fv,
      filter_response e ald acc levels f2a pk1 = .ok fv →
        filter_response fv ald acc levels f2a pk1 = .ok fv)
    (ho : processElems l ald acc levels f2a pk = .ok o) :
    processElems o ald acc levels f2a pk = .ok o := by
  induction l generalizing o with
  | nil =>
      rw [processElems_nil] at ho
      cases ho
      rfl
  | cons e tl ih =>
      by_cases hd : isDict e = true
      · by_cases hkeep : (!truthy (elemGet e "datasetId")
            || inAccessible (elemGet e "datasetId") acc) = true
        · rw [processElems_cons_kept hd hkeep] at ho
          obtain ⟨fe, hfe, ho⟩ := ebind_ok_iff.mp ho
          obtain ⟨r, hr, ho⟩ := ebind_ok_iff.mp ho
          cases ho
          have hrr := ih (fun x hx => hwfall x (List.mem_cons_of_mem _ hx))
            (fun x hx => hIHall x (List.mem_cons_of_mem _ hx)) hr
          have hfed : isDict fe = true := filter_preserves_isDict hd hfe
          have hfek : (!truthy (elemGet fe "datasetId")
              || inAccessible (elemGet fe "datasetId") acc) = true :=
            keep_preserved (hwfall e (List.mem_cons_self _ _)) hd hkeep hfe
          rw [processElems_cons_kept hfed hfek,
            hIHall e (List.mem_cons_self _ _) pk fe hfe, ok_bind, hrr, ok_bind]
        · rw [processElems_cons_dropped hd (Bool.eq_false_iff.mpr hkeep)] at ho
          exact ih (fun x hx => hwfall x (List.mem_cons_of_mem _ hx))
            (fun x hx => hIHall x (List.mem_cons_of_mem _ hx)) ho
      · rw [processElems_cons_notdict (Bool.eq_false_iff.mpr hd)] at ho
        exact ih (fun x hx => hwfall x (List.mem_cons_of_mem _ hx))
          (fun x hx => hIHall x (List.mem_cons_of_mem _ hx)) ho

theorem filter_response_idem_aux :
    ∀ n r, sizeOf r ≤ n → wfJ r = true → ∀ pk fv,
      filter_response r ald acc levels f2a pk = .ok fv →
        filter_response fv ald acc levels f2a pk = .ok fv := by
  intro n
  induction n with
  | zero =>
      intro r hr
      cases r <;> simp at hr
  | succ n ih =>
      intro r hr hwf pk fv hfv
      cases r with
      | jobj fields =>
          obtain ⟨o, ho, rfl⟩ := filter_obj_ok_iff.mp hfv
          have hIHall : ∀ kv ∈ fields, ∀ pk1 fv1,
              filter_response kv.2 ald acc levels f2a pk1 = .ok fv1 →
                filter_response fv1 ald acc levels f2a pk1 = .ok fv1 := by
            intro kv hkv pk1 fv1 h1
            obtain ⟨k1, v1⟩ := kv
            refine ih v1 ?_ (wfFields_mem (wfJ_obj hwf).2 hkv) pk1 fv1 h1
            have h2 := List.sizeOf_lt_of_mem hkv
            have h3 : sizeOf (JVal.jobj fields) = 1 + sizeOf fields := by simp
            have h4 : sizeOf ((k1, v1) : String × JVal) = 1 + sizeOf k1 + sizeOf v1 := by
              simp
            omega
          exact filter_obj_ok_iff.mpr ⟨o, processFields_idem hIHall ho, rfl⟩
      | jarr elems =>
          obtain ⟨o, ho, rfl⟩ := filter_arr_ok_iff.mp hfv
          have hwfall : ∀ e ∈ elems, wfJ e = true :=
            fun e he => wfElems_mem (wfJ_arr hwf) he
          have hIHall : ∀ e ∈ elems, ∀ pk1 fv1,
              filter_response e ald acc levels f2a pk1 = .ok fv1 →
                filter_response fv1 ald acc levels f2a pk1 = .ok fv1 := by
            intro e he pk1 fv1 h1
            refine ih e ?_ (hwfall e he) pk1 fv1 h1
            have h2 := List.sizeOf_lt_of_mem he
            have h3 : sizeOf (JVal.jarr elems) = 1 + sizeOf elems := by simp
            omega
          exact filter_arr_ok_iff.mpr ⟨o, processElems_idem hwfall hIHall ho, rfl⟩
      | jnull =>
          cases hfv
          rfl
      | jbool b =>
          cases hfv
          rfl
      | jint i =>
          cases hfv
          rfl
      | jstr str =>
          cases hfv
          rfl

/-- C9 (confirmed). Idempotence of the response filter: filtering an
already-filtered response with the same policy, accessible datasets, granted
tiers, translation table and parent key returns it unchanged. (`wfJ` states
that dict nodes have distinct keys, which every Python dict satisfies.) -/
theorem C9_filter_response_idempotent (r fv : JVal) (ald : List (String × JVal))
    (acc levels : List String) (f2a : List (String × String)) (pk : Option String)
    (hwf : wfJ r = true)
    (h : filter_response r ald acc levels f2a pk = .ok fv) :
    filter_response fv ald acc levels f2a pk = .ok fv :=
  filter_response_idem_aux (sizeOf r) r le_rfl hwf pk fv h

/-- Witness for C9 at a concrete input: the filtered beacon response (with the
CONTROLLED field `secret` removed) maps to itself when filtered again. -/
theorem C9_filter_response_idempotent_witness :
    filter_response
        (.jobj [("beacon", .jobj [("name", .jstr "b"), ("secret", .jint 7)])])
        [("beacon", .jobj [("accessLevelSummary", .jstr "PUBLIC"),
                           ("name", .jstr "PUBLIC"), ("secret", .jstr "CONTROLLED")])]
        [] ["PUBLIC"] [] none
      = .ok (.jobj [("beacon", .jobj [("name", .jstr "b")])])
    ∧ filter_response (.jobj [("beacon", .jobj [("name", .jstr "b")])])
        [("beacon", .jobj [("accessLevelSummary", .jstr "PUBLIC"),
                           ("name", .jstr "PUBLIC"), ("secret", .jstr "CONTROLLED")])]
        [] ["PUBLIC"] [] none
      = .ok (.jobj [("beacon", .jobj [("name", .jstr "b")])]) :=
  ⟨rfl, C9_filter_response_idempotent
    (.jobj [("beacon", .jobj [("name", .jstr "b"), ("secret", .jint 7)])])
    (.jobj [("beacon", .jobj [("name", .jstr "b")])])
    [("beacon", .jobj [("accessLevelSummary", .jstr "PUBLIC"),
                       ("name", .jstr "PUBLIC"), ("secret", .jstr "CONTROLLED")])]
    [] ["PUBLIC"] [] none rfl rfl⟩

end Beacon
